import Mathlib

/-!
Verification of the event-bus connectivity layer of `brewblox_service/events.py`.

The development shallowly embeds the stateful Python code as explicit state
machines driven by oracle actions (each action carries the outcome of one
remote operation: connect, channel open, ensure-open, declare, publish), and
embeds the `json.dumps` / `json.loads` pair used by `EventPublisher.publish`
and `EventSubscription._relay` as an executable serializer and parser over an
inductive JSON value type.
-/

namespace Brewblox

/-- Identifier of an accepted subscription, in allocation order: the `n`-th
call to `EventListener.subscribe` creates subscription `n`. -/
abbrev SubId := Nat

/-- Control position of the `EventListener._listen` loop.
`down`: no usable connection (before `aioamqp.connect`, or after a failure).
`replay todo`: connected, re-declaring the active subscriptions; `todo` is
the suffix of `_subscriptions` still to declare.
`idle`: connected, at the top of the inner loop (about to `ensure_open` and
wait on `_pending.get()`).
`inflight id`: subscription `id` has been dequeued from `_pending` but its
`declare_on_remote` has not resolved yet. -/
inductive Phase where
  | down
  | replay (todo : List SubId)
  | idle
  | inflight (id : SubId)
  deriving DecidableEq, Repr

/-- State of one `EventListener`: `nextId` counts accepted subscriptions,
`started` records whether `startup` ran (i.e. whether `_pending` is a real
queue), `pre` is `_pending_pre_async`, `pending` is the FIFO contents of the
`_pending` queue, `active` is `_subscriptions`. `enqHist` and `deqHist` are
ghost histories of every enqueue into and dequeue out of `_pending`, in
chronological order. -/
structure LState where
  nextId : Nat
  started : Bool
  pre : List SubId
  pending : List SubId
  active : List SubId
  phase : Phase
  enqHist : List SubId
  deqHist : List SubId
  deriving DecidableEq, Repr

/-- Freshly constructed `EventListener`. -/
def LState.init : LState :=
  { nextId := 0, started := false, pre := [], pending := [], active := [],
    phase := .down, enqHist := [], deqHist := [] }

/-- Outcome of one pass through `ensure_open` + `wait_for(_pending.get())` at
the top of the inner loop. -/
inductive GetResult where
  | ensureFail
  | timeout
  | got
  deriving DecidableEq, Repr

/-- One observable step of the listener system: an external `subscribe()`
call, the `startup` hook, or one suspension point of the `_listen` loop
together with its outcome. -/
inductive LAct where
  | subscribe
  | startup
  | connect (ok : Bool)
  | replayStep (ok : Bool)
  | getStep (r : GetResult)
  | resolve (ok : Bool)
  deriving DecidableEq, Repr

/-- Observable events emitted by the `_listen` loop. A `connected` event
records the `_subscriptions` list at (re)connect time. -/
inductive LEvent where
  | connected (active : List SubId)
  | redeclared (id : SubId)
  | dequeued (id : SubId)
  | activated (id : SubId)
  | requeued (id : SubId)
  | dropped
  deriving DecidableEq, Repr

/-- One transition of the listener machine, returning the new state and the
events emitted. Actions that do not match the current phase are no-ops. -/
def lstep : LAct → LState → LState × List LEvent
  | .subscribe, s =>
    if s.started then
      ({ s with pending := s.pending ++ [s.nextId],
                enqHist := s.enqHist ++ [s.nextId],
                nextId := s.nextId + 1 }, [])
    else
      ({ s with pre := s.pre ++ [s.nextId], nextId := s.nextId + 1 }, [])
  | .startup, s =>
    if s.started then (s, [])
    else
      ({ s with started := true, pending := s.pre, pre := [],
                enqHist := s.enqHist ++ s.pre }, [])
  | .connect ok, s =>
    match s.phase with
    | .down =>
      if ok then
        ({ s with phase := if s.active.isEmpty then .idle else .replay s.active },
         [.connected s.active])
      else (s, [])
    | _ => (s, [])
  | .replayStep ok, s =>
    match s.phase with
    | .replay (t :: ts) =>
      if ok then
        ({ s with phase := if ts.isEmpty then .idle else .replay ts }, [.redeclared t])
      else
        ({ s with phase := .down }, [.dropped])
    | _ => (s, [])
  | .getStep r, s =>
    match s.phase with
    | .idle =>
      match r with
      | .ensureFail => ({ s with phase := .down }, [.dropped])
      | .timeout => (s, [])
      | .got =>
        match s.pending with
        | [] => (s, [])
        | p :: ps =>
          ({ s with pending := ps, phase := .inflight p,
                    deqHist := s.deqHist ++ [p] }, [.dequeued p])
    | _ => (s, [])
  | .resolve ok, s =>
    match s.phase with
    | .inflight id =>
      if ok then
        ({ s with active := s.active ++ [id], phase := .idle }, [.activated id])
      else
        ({ s with pending := s.pending ++ [id], phase := .down,
                  enqHist := s.enqHist ++ [id] }, [.requeued id, .dropped])
    | _ => (s, [])

/-- Run the listener machine over an action sequence, collecting the trace. -/
def lrun : List LAct → LState → LState × List LEvent
  | [], s => (s, [])
  | a :: as, s =>
    let p := lstep a s
    let q := lrun as p.1
    (q.1, p.2 ++ q.2)

/-- Subscription held by a local variable of the loop body (dequeued from
`_pending` but neither re-enqueued nor appended to `_subscriptions` yet). -/
def Phase.hold : Phase → List SubId
  | .inflight id => [id]
  | _ => []

/-- All places an accepted subscription can live: the pre-start holding list,
the pending queue, the loop's local variable, and the active list. -/
def LState.everywhere (s : LState) : List SubId :=
  s.pre ++ s.pending ++ s.phase.hold ++ s.active

/-- Occurrence count of a subscription id in a list. -/
def cnt (id : Nat) : List Nat → Nat
  | [] => 0
  | x :: xs => (if x = id then 1 else 0) + cnt id xs

theorem cnt_append (id : Nat) (l1 l2 : List Nat) :
    cnt id (l1 ++ l2) = cnt id l1 + cnt id l2 := by
  induction l1 with
  | nil => simp [cnt]
  | cons x xs ih => simp [cnt, ih]; omega

/-- Main listener invariant: every accepted subscription id occurs exactly
once across all holding places; before startup the pending queue is empty
and no declare is in flight; the enqueue history is the dequeue history
followed by the current queue contents (FIFO correctness of `_pending`). -/
def LInv (s : LState) : Prop :=
  (∀ id : Nat, cnt id s.everywhere = if id < s.nextId then 1 else 0) ∧
  (s.started = false → s.pending = []) ∧
  (s.started = false → s.phase.hold = []) ∧
  s.enqHist = s.deqHist ++ s.pending

theorem linv_init : LInv LState.init := by
  refine ⟨fun id => ?_, fun _ => rfl, fun _ => rfl, rfl⟩
  simp [LState.everywhere, LState.init, Phase.hold, cnt]

theorem hold_branch (c : Bool) (x : List SubId) :
    Phase.hold (if c = true then Phase.idle else Phase.replay x) = [] := by
  cases c <;> simp [Phase.hold]

theorem linv_step (a : LAct) (s : LState) (h : LInv s) : LInv (lstep a s).1 := by
  obtain ⟨n, st, pre, pend, act, ph, eh, dh⟩ := s
  obtain ⟨hcount0, hpre0, hhold0, hfifo0⟩ := h
  have hcount : ∀ id : Nat, cnt id (pre ++ pend ++ ph.hold ++ act) =
      if id < n then 1 else 0 := hcount0
  have hpre : st = false → pend = [] := hpre0
  have hhold : st = false → ph.hold = [] := hhold0
  have hfifo : eh = dh ++ pend := hfifo0
  clear hcount0 hpre0 hhold0 hfifo0
  cases a with
  | subscribe =>
    cases st with
    | true =>
      refine ⟨fun id => ?_, by simp [lstep], by simp [lstep], ?_⟩
      · have hc := hcount id
        simp [lstep, LState.everywhere, cnt_append, cnt] at hc ⊢
        split_ifs at hc ⊢ <;> omega
      · show (eh ++ [n]) = dh ++ (pend ++ [n])
        simp [hfifo]
    | false =>
      refine ⟨fun id => ?_, fun _ => hpre rfl, fun _ => hhold rfl, hfifo⟩
      have hc := hcount id
      simp [lstep, LState.everywhere, cnt_append, cnt] at hc ⊢
      split_ifs at hc ⊢ <;> omega
  | startup =>
    cases st with
    | true => exact ⟨hcount, by simp [lstep], by simp [lstep], hfifo⟩
    | false =>
      have hpe : pend = [] := hpre rfl
      subst hpe
      refine ⟨fun id => ?_, by simp [lstep], by simp [lstep], ?_⟩
      · have hc := hcount id
        simp [lstep, LState.everywhere, cnt_append, cnt] at hc ⊢
        omega
      · show eh ++ pre = dh ++ pre
        simp [hfifo]
  | connect ok =>
    cases ph with
    | down =>
      cases ok with
      | true =>
        refine ⟨fun id => ?_, fun hns => hpre hns, fun _ => hold_branch _ _, hfifo⟩
        have hc := hcount id
        by_cases hae : act.isEmpty <;>
          simp [lstep, hae, LState.everywhere, Phase.hold, cnt_append, cnt] at hc ⊢ <;>
          omega
      | false => exact ⟨hcount, hpre, hhold, hfifo⟩
    | replay todo => exact ⟨hcount, hpre, hhold, hfifo⟩
    | idle => exact ⟨hcount, hpre, hhold, hfifo⟩
    | inflight i => exact ⟨hcount, hpre, hhold, hfifo⟩
  | replayStep ok =>
    cases ph with
    | replay todo =>
      cases todo with
      | nil => exact ⟨hcount, hpre, hhold, hfifo⟩
      | cons t ts =>
        cases ok with
        | true =>
          refine ⟨fun id => ?_, fun hns => hpre hns, fun _ => hold_branch _ _, hfifo⟩
          have hc := hcount id
          by_cases hae : ts.isEmpty <;>
            simp [lstep, hae, LState.everywhere, Phase.hold, cnt_append, cnt] at hc ⊢ <;>
            omega
        | false =>
          refine ⟨fun id => ?_, fun hns => hpre hns, fun _ => rfl, hfifo⟩
          have hc := hcount id
          simp [lstep, LState.everywhere, Phase.hold, cnt_append, cnt] at hc ⊢
          omega
    | down => exact ⟨hcount, hpre, hhold, hfifo⟩
    | idle => exact ⟨hcount, hpre, hhold, hfifo⟩
    | inflight i => exact ⟨hcount, hpre, hhold, hfifo⟩
  | getStep r =>
    cases ph with
    | idle =>
      cases r with
      | ensureFail =>
        refine ⟨fun id => ?_, fun hns => hpre hns, fun _ => rfl, hfifo⟩
        have hc := hcount id
        simp [lstep, LState.everywhere, Phase.hold, cnt_append, cnt] at hc ⊢
        omega
      | timeout => exact ⟨hcount, hpre, hhold, hfifo⟩
      | got =>
        cases pend with
        | nil => exact ⟨hcount, hpre, hhold, hfifo⟩
        | cons p ps =>
          refine ⟨fun id => ?_, fun hns => ?_, fun hns => ?_, ?_⟩
          · have hc := hcount id
            simp [lstep, LState.everywhere, Phase.hold, cnt_append, cnt] at hc ⊢
            split_ifs at hc ⊢ <;> omega
          · exact absurd (hpre hns) (by simp)
          · exact absurd (hpre hns) (by simp)
          · show eh = (dh ++ [p]) ++ ps
            simp [hfifo]
    | down => exact ⟨hcount, hpre, hhold, hfifo⟩
    | replay todo => exact ⟨hcount, hpre, hhold, hfifo⟩
    | inflight i => exact ⟨hcount, hpre, hhold, hfifo⟩
  | resolve ok =>
    cases ph with
    | inflight i =>
      cases ok with
      | true =>
        refine ⟨fun id => ?_, fun hns => hpre hns, fun _ => rfl, hfifo⟩
        have hc := hcount id
        simp [lstep, LState.everywhere, Phase.hold, cnt_append, cnt] at hc ⊢
        split_ifs at hc ⊢ <;> omega
      | false =>
        refine ⟨fun id => ?_, fun hns => ?_, fun _ => rfl, ?_⟩
        · have hc := hcount id
          simp [lstep, LState.everywhere, Phase.hold, cnt_append, cnt] at hc ⊢
          split_ifs at hc ⊢ <;> omega
        · exact absurd (hhold hns) (by simp [Phase.hold])
        · show eh ++ [i] = dh ++ (pend ++ [i])
          simp [hfifo]
    | down => exact ⟨hcount, hpre, hhold, hfifo⟩
    | replay todo => exact ⟨hcount, hpre, hhold, hfifo⟩
    | idle => exact ⟨hcount, hpre, hhold, hfifo⟩

theorem linv_run (acts : List LAct) (s : LState) (h : LInv s) :
    LInv (lrun acts s).1 := by
  induction acts generalizing s with
  | nil => exact h
  | cons a as ih =>
    exact ih (lstep a s).1 (linv_step a s h)

theorem linv_reachable (acts : List LAct) : LInv (lrun acts LState.init).1 :=
  linv_run acts LState.init linv_init

/-- Claim C2: for every sequence of subscribe calls and listener-loop steps,
each accepted subscription lives in exactly one place overall (pre-start
holding list, pending queue, the loop's in-flight local, or the active
list), and whenever no declare is in flight it is in exactly one of the
pending collection and the active list — never both, never lost. -/
theorem c2_subscription_exactly_one (acts : List LAct) (id : Nat)
    (h : id < (lrun acts LState.init).1.nextId) :
    cnt id (lrun acts LState.init).1.everywhere = 1 ∧
    ((lrun acts LState.init).1.phase.hold = [] →
      cnt id ((lrun acts LState.init).1.pre ++ (lrun acts LState.init).1.pending) +
        cnt id (lrun acts LState.init).1.active = 1) := by
  obtain ⟨hcount, -, -, -⟩ := linv_reachable acts
  have h1 := hcount id
  rw [if_pos h] at h1
  refine ⟨h1, fun hh => ?_⟩
  have h2 : cnt id (lrun acts LState.init).1.everywhere =
      cnt id ((lrun acts LState.init).1.pre ++ (lrun acts LState.init).1.pending) +
        cnt id (lrun acts LState.init).1.active := by
    simp [LState.everywhere, cnt_append, hh, cnt]
    omega
  omega

/-- Witness for C2 at a concrete action sequence: one subscription accepted
before startup, then started, connected, dequeued and declared. -/
theorem c2_subscription_exactly_one_witness :
    0 < (lrun [LAct.subscribe, LAct.startup, LAct.connect true,
      LAct.getStep GetResult.got, LAct.resolve true] LState.init).1.nextId ∧
    (cnt 0 (lrun [LAct.subscribe, LAct.startup, LAct.connect true,
        LAct.getStep GetResult.got, LAct.resolve true] LState.init).1.everywhere = 1 ∧
     ((lrun [LAct.subscribe, LAct.startup, LAct.connect true,
        LAct.getStep GetResult.got, LAct.resolve true] LState.init).1.phase.hold = [] →
       cnt 0 ((lrun [LAct.subscribe, LAct.startup, LAct.connect true,
           LAct.getStep GetResult.got, LAct.resolve true] LState.init).1.pre ++
           (lrun [LAct.subscribe, LAct.startup, LAct.connect true,
           LAct.getStep GetResult.got, LAct.resolve true] LState.init).1.pending) +
         cnt 0 (lrun [LAct.subscribe, LAct.startup, LAct.connect true,
           LAct.getStep GetResult.got, LAct.resolve true] LState.init).1.active = 1)) :=
  ⟨by decide, c2_subscription_exactly_one
    [LAct.subscribe, LAct.startup, LAct.connect true,
     LAct.getStep GetResult.got, LAct.resolve true] 0 (by decide)⟩

/-- Claim C10: when declaring a dequeued pending subscription fails, the
subscription is re-enqueued with `put_nowait` at the tail of the pending
queue, behind every subscription that arrived while it was being declared,
and the connection is abandoned. -/
theorem c10_failed_declare_requeues_at_tail (s : LState) (id : SubId)
    (h : s.phase = .inflight id) :
    (lstep (.resolve false) s).1.pending = s.pending ++ [id] ∧
    (lstep (.resolve false) s).1.phase = .down ∧
    (lstep (.resolve false) s).2 = [.requeued id, .dropped] := by
  obtain ⟨n, st, pre, pend, act, ph, eh, dh⟩ := s
  subst h
  exact ⟨rfl, rfl, rfl⟩

/-- Witness for C10: subscription 0 is in flight while subscription 2 sits
in the queue (it arrived during the declare); after the failure the queue is
`[2, 0]`, so 0 is retried behind 2. -/
theorem c10_failed_declare_requeues_at_tail_witness :
    (lstep (.resolve false)
      { nextId := 3, started := true, pre := [], pending := [2], active := [1],
        phase := .inflight 0, enqHist := [1, 0, 2], deqHist := [1, 0] }).1.pending =
      [2] ++ [0] ∧
    (lstep (.resolve false)
      { nextId := 3, started := true, pre := [], pending := [2], active := [1],
        phase := .inflight 0, enqHist := [1, 0, 2], deqHist := [1, 0] }).1.phase =
      .down ∧
    (lstep (.resolve false)
      { nextId := 3, started := true, pre := [], pending := [2], active := [1],
        phase := .inflight 0, enqHist := [1, 0, 2], deqHist := [1, 0] }).2 =
      [.requeued 0, .dropped] :=
  c10_failed_declare_requeues_at_tail
    { nextId := 3, started := true, pre := [], pending := [2], active := [1],
      phase := .inflight 0, enqHist := [1, 0, 2], deqHist := [1, 0] } 0 rfl

/-- Automaton checking the replay-active-then-drain-pending discipline over a
trace. State `none`: no connection open, so no declare or dequeue event may
occur. State `some owed`: a connection is open and `owed` is the suffix of
the connect-time active list not yet re-declared; pending-queue events
(`dequeued`, `activated`, `requeued`) are only legal once `owed` is empty,
and re-declarations must consume `owed` from the front, in order. Returns
`none` on a violation, otherwise the next automaton state. -/
def c1StepA : Option (List SubId) → LEvent → Option (Option (List SubId))
  | _, .connected as => some (some as)
  | some (t :: ts), .redeclared i => if i = t then some (some ts) else none
  | _, .redeclared _ => none
  | some [], .dequeued _ => some (some [])
  | _, .dequeued _ => none
  | some [], .activated _ => some (some [])
  | _, .activated _ => none
  | some [], .requeued _ => some (some [])
  | _, .requeued _ => none
  | some _, .dropped => some none
  | none, .dropped => none

/-- Run the replay-discipline automaton over a trace. -/
def c1Run : Option (List SubId) → List LEvent → Option (Option (List SubId))
  | a, [] => some a
  | a, e :: es =>
    match c1StepA a e with
    | none => none
    | some a2 => c1Run a2 es

theorem c1Run_append (a : Option (List SubId)) (es1 es2 : List LEvent) :
    c1Run a (es1 ++ es2) =
      match c1Run a es1 with
      | none => none
      | some a2 => c1Run a2 es2 := by
  induction es1 generalizing a with
  | nil => simp [c1Run]
  | cons e es ih =>
    simp only [List.cons_append, c1Run]
    cases c1StepA a e with
    | none => rfl
    | some a2 => exact ih a2

/-- Automaton state corresponding to a listener phase. -/
def autOf : Phase → Option (List SubId)
  | .down => none
  | .replay todo => some todo
  | .idle => some []
  | .inflight _ => some []

theorem c1_step_sync (a : LAct) (s : LState) :
    c1Run (autOf s.phase) (lstep a s).2 = some (autOf (lstep a s).1.phase) := by
  obtain ⟨n, st, pre, pend, act, ph, eh, dh⟩ := s
  cases a with
  | subscribe => cases st <;> rfl
  | startup => cases st <;> rfl
  | connect ok =>
    cases ph with
    | down =>
      cases ok with
      | true =>
        by_cases hae : act.isEmpty
        · have : act = [] := by simpa using hae
          subst this
          rfl
        · have : act.isEmpty = false := by
            cases hb : act.isEmpty
            · rfl
            · exact absurd hb hae
          cases act with
          | nil => simp at this
          | cons x xs => rfl
      | false => rfl
    | replay todo => rfl
    | idle => rfl
    | inflight i => rfl
  | replayStep ok =>
    cases ph with
    | replay todo =>
      cases todo with
      | nil => rfl
      | cons t ts =>
        cases ok with
        | true =>
          cases ts with
          | nil => simp [lstep, c1Run, c1StepA, autOf]
          | cons u us => simp [lstep, c1Run, c1StepA, autOf]
        | false => rfl
    | down => rfl
    | idle => rfl
    | inflight i => rfl
  | getStep r =>
    cases ph with
    | idle =>
      cases r with
      | ensureFail => rfl
      | timeout => rfl
      | got => cases pend <;> rfl
    | down => rfl
    | replay todo => rfl
    | inflight i => rfl
  | resolve ok =>
    cases ph with
    | inflight i => cases ok <;> rfl
    | down => rfl
    | replay todo => rfl
    | idle => rfl

theorem c1_run_sync (acts : List LAct) (s : LState) :
    c1Run (autOf s.phase) (lrun acts s).2 = some (autOf (lrun acts s).1.phase) := by
  induction acts generalizing s with
  | nil => rfl
  | cons a as ih =>
    show c1Run (autOf s.phase) ((lstep a s).2 ++ (lrun as (lstep a s).1).2) =
      some (autOf (lrun as (lstep a s).1).1.phase)
    rw [c1Run_append, c1_step_sync]
    exact ih (lstep a s).1

/-- Claim C1: every trace of the listener machine satisfies the replay
discipline checked by `c1Run`: after each successful (re)connect, the
subscriptions of the connect-time active list are re-declared on the new
session in insertion order, and no pending subscription is dequeued,
declared, or requeued before that replay has completed. -/
theorem c1_replay_active_before_pending (acts : List LAct) :
    (c1Run none (lrun acts LState.init).2).isSome = true := by
  have h := c1_run_sync acts LState.init
  have h0 : autOf LState.init.phase = none := rfl
  rw [h0] at h
  rw [h]
  rfl

/-- Connect-time active lists recorded in a trace, in order. -/
def connectedLists : List LEvent → List (List SubId)
  | [] => []
  | .connected as :: es => as :: connectedLists es
  | _ :: es => connectedLists es

/-- Each list in the sequence extends the previous one (and the first
extends `base`) by appending new elements at the tail only. -/
def chainedFrom : List SubId → List (List SubId) → Prop
  | _, [] => True
  | base, as :: rest => (∃ t, base ++ t = as) ∧ chainedFrom as rest

theorem connectedLists_append (es1 es2 : List LEvent) :
    connectedLists (es1 ++ es2) = connectedLists es1 ++ connectedLists es2 := by
  induction es1 with
  | nil => rfl
  | cons e es ih =>
    cases e <;> simp [connectedLists, ih]

theorem lstep_active_mono (a : LAct) (s : LState) :
    ∃ t, s.active ++ t = (lstep a s).1.active := by
  obtain ⟨n, st, pre, pend, act, ph, eh, dh⟩ := s
  cases a with
  | subscribe => cases st <;> exact ⟨[], by simp [lstep]⟩
  | startup => cases st <;> exact ⟨[], by simp [lstep]⟩
  | connect ok =>
    cases ph <;> cases ok <;> exact ⟨[], by simp [lstep]⟩
  | replayStep ok =>
    cases ph with
    | replay todo => cases todo <;> cases ok <;> exact ⟨[], by simp [lstep]⟩
    | down => exact ⟨[], by simp [lstep]⟩
    | idle => exact ⟨[], by simp [lstep]⟩
    | inflight i => exact ⟨[], by simp [lstep]⟩
  | getStep r =>
    cases ph with
    | idle =>
      cases r with
      | ensureFail => exact ⟨[], by simp [lstep]⟩
      | timeout => exact ⟨[], by simp [lstep]⟩
      | got => cases pend <;> exact ⟨[], by simp [lstep]⟩
    | down => exact ⟨[], by simp [lstep]⟩
    | replay todo => exact ⟨[], by simp [lstep]⟩
    | inflight i => exact ⟨[], by simp [lstep]⟩
  | resolve ok =>
    cases ph with
    | inflight i =>
      cases ok with
      | true => exact ⟨[i], by simp [lstep]⟩
      | false => exact ⟨[], by simp [lstep]⟩
    | down => exact ⟨[], by simp [lstep]⟩
    | replay todo => exact ⟨[], by simp [lstep]⟩
    | idle => exact ⟨[], by simp [lstep]⟩

theorem lstep_connectedLists (a : LAct) (s : LState) :
    connectedLists (lstep a s).2 = [] ∨
    (connectedLists (lstep a s).2 = [s.active] ∧ (lstep a s).1.active = s.active) := by
  obtain ⟨n, st, pre, pend, act, ph, eh, dh⟩ := s
  cases a with
  | subscribe => cases st <;> exact Or.inl rfl
  | startup => cases st <;> exact Or.inl rfl
  | connect ok =>
    cases ph with
    | down =>
      cases ok with
      | true => exact Or.inr ⟨rfl, rfl⟩
      | false => exact Or.inl rfl
    | replay todo => exact Or.inl rfl
    | idle => exact Or.inl rfl
    | inflight i => exact Or.inl rfl
  | replayStep ok =>
    cases ph with
    | replay todo => cases todo <;> cases ok <;> exact Or.inl rfl
    | down => exact Or.inl rfl
    | idle => exact Or.inl rfl
    | inflight i => exact Or.inl rfl
  | getStep r =>
    cases ph with
    | idle =>
      cases r with
      | ensureFail => exact Or.inl rfl
      | timeout => exact Or.inl rfl
      | got => cases pend <;> exact Or.inl rfl
    | down => exact Or.inl rfl
    | replay todo => exact Or.inl rfl
    | inflight i => exact Or.inl rfl
  | resolve ok =>
    cases ph with
    | inflight i => cases ok <;> exact Or.inl rfl
    | down => exact Or.inl rfl
    | replay todo => exact Or.inl rfl
    | idle => exact Or.inl rfl

theorem chainedFrom_run (acts : List LAct) (s : LState) (base : List SubId)
    (h : ∃ t, base ++ t = s.active) :
    chainedFrom base (connectedLists (lrun acts s).2) := by
  induction acts generalizing s base with
  | nil => trivial
  | cons a as ih =>
    show chainedFrom base (connectedLists ((lstep a s).2 ++ (lrun as (lstep a s).1).2))
    rw [connectedLists_append]
    rcases lstep_connectedLists a s with hnil | ⟨hone, hact⟩
    · rw [hnil, List.nil_append]
      refine ih (lstep a s).1 base ?_
      obtain ⟨t1, ht1⟩ := h
      obtain ⟨t2, ht2⟩ := lstep_active_mono a s
      exact ⟨t1 ++ t2, by rw [← ht2, ← ht1, List.append_assoc]⟩
    · rw [hone, List.cons_append, List.nil_append]
      exact ⟨h, ih (lstep a s).1 s.active ⟨[], by rw [List.append_nil, hact]⟩⟩

/-- Claim C7: in every trace of the listener machine, successive reconnects
replay the active subscriptions in the same relative order (each recorded
connect-time active list extends the previous one at the tail only), the
re-declarations within each connection follow that list in order (the
`c1Run` discipline), and the pending queue is drained in FIFO arrival
order (the enqueue history always equals the dequeue history followed by
the current queue contents). -/
theorem c7_replay_order_stable_and_pending_fifo (acts : List LAct) :
    chainedFrom [] (connectedLists (lrun acts LState.init).2) ∧
    (c1Run none (lrun acts LState.init).2).isSome = true ∧
    (lrun acts LState.init).1.enqHist =
      (lrun acts LState.init).1.deqHist ++ (lrun acts LState.init).1.pending := by
  refine ⟨chainedFrom_run acts LState.init [] ⟨[], rfl⟩, ?_, ?_⟩
  · have h := c1_run_sync acts LState.init
    have h0 : autOf LState.init.phase = none := rfl
    rw [h0] at h
    rw [h]
    rfl
  · obtain ⟨-, -, -, hfifo⟩ := linv_reachable acts
    exact hfifo

/-- State of one `EventPublisher`: the cached `_transport`, `_protocol` and
`_channel` fields (connection ids stand in for the aioamqp objects), a ghost
list `live` of connections opened by `aioamqp.connect` and not yet closed,
and a fresh-id counter. -/
structure PubState where
  transport : Option Nat
  protocol : Option Nat
  channel : Option Nat
  live : List Nat
  nextConn : Nat
  deriving DecidableEq, Repr

/-- Freshly constructed `EventPublisher` (after `_reset`). -/
def PubState.init : PubState :=
  { transport := none, protocol := none, channel := none, live := [], nextConn := 0 }

/-- The `connected` property: `self._transport and self._protocol and
self._channel` are all truthy. -/
def PubState.connected (s : PubState) : Bool :=
  s.transport.isSome && s.protocol.isSome && s.channel.isSome

/-- The `_reset` method: forget the cached session fields. -/
def pReset (s : PubState) : PubState :=
  { s with transport := none, protocol := none, channel := none }

/-- The `_close` method: best-effort close of the protocol and transport
(removing the connection from the ghost live list when a protocol is
cached), then `_reset`. Failures during close are swallowed. -/
def pClose (s : PubState) : PubState :=
  pReset { s with live := match s.protocol with
                          | some id => s.live.erase id
                          | none => s.live }

/-- Outcomes the broker environment supplies to one `_ensure_channel` call:
whether `aioamqp.connect` succeeds, whether `protocol.channel()` succeeds,
and whether `protocol.ensure_open()` succeeds. -/
structure EnsOracle where
  connectOk : Bool
  channelOk : Bool
  ensureOpenOk : Bool
  deriving DecidableEq, Repr

/-- Errors a publish call can raise. -/
inductive PubErr where
  | connectFail
  | channelFail
  | ensureOpenFail
  | declareFail
  | sendFail
  deriving DecidableEq, Repr

/-- The `_ensure_channel` method: if not `connected`, open a new connection
(recording it in the ghost live list) and a channel on it; then check
`ensure_open`, and on failure `_close` the session and re-raise. A failure
of `connect` or `channel()` propagates immediately without any close. -/
def ensureChannel (o : EnsOracle) (s : PubState) : PubState × Option PubErr :=
  let conn : PubState × Option PubErr :=
    if s.connected then (s, none)
    else if o.connectOk then
      let id := s.nextConn
      let s1 := { s with transport := some id, protocol := some id,
                         live := s.live ++ [id], nextConn := id + 1 }
      if o.channelOk then ({ s1 with channel := some id }, none)
      else (s1, some .channelFail)
    else (s, some .connectFail)
  match conn with
  | (s1, some e) => (s1, some e)
  | (s1, none) =>
    if o.ensureOpenOk then (s1, none) else (pClose s1, some .ensureOpenFail)

/-- Outcomes the environment supplies to one `publish` call: the two
possible `_ensure_channel` attempts and the `exchange_declare` and
`basic_publish` steps. -/
structure PubOracle where
  ens1 : EnsOracle
  ens2 : EnsOracle
  declareOk : Bool
  sendOk : Bool
  deriving DecidableEq, Repr

/-- The body of `publish` after the channel is ensured: `exchange_declare`
then `basic_publish`; a failure of either propagates to the caller. -/
def publishBody (o : PubOracle) (s : PubState) : PubState × Option PubErr :=
  if o.declareOk then
    if o.sendOk then (s, none) else (s, some .sendFail)
  else (s, some .declareFail)

/-- The `publish` method: try `_ensure_channel`; on any error retry it
exactly once; a second error propagates. Then declare the exchange and
publish. The `Nat` component counts the `_ensure_channel` attempts made. -/
def publish (o : PubOracle) (s : PubState) : PubState × Option PubErr × Nat :=
  match ensureChannel o.ens1 s with
  | (s1, none) =>
    let r := publishBody o s1
    (r.1, r.2, 1)
  | (s1, some _) =>
    match ensureChannel o.ens2 s1 with
    | (s2, none) =>
      let r := publishBody o s2
      (r.1, r.2, 2)
    | (s2, some e2) => (s2, some e2, 2)

/-- One external call on the publisher: a `publish` (with its oracle) or the
`shutdown` hook (which runs `_close`). -/
inductive PubCall where
  | publishC (o : PubOracle)
  | shutdownC
  deriving DecidableEq, Repr

/-- Execute one publisher call, ignoring the returned error. -/
def pubCallStep : PubCall → PubState → PubState
  | .publishC o, s => (publish o s).1
  | .shutdownC, s => pClose s

/-- Run a sequence of publisher calls. -/
def pubRun : List PubCall → PubState → PubState
  | [], s => s
  | c :: cs, s => pubRun cs (pubCallStep c s)

/-- Oracle in which the first ensure-channel fails at connect and the retry
fully succeeds. -/
def oracleRetryOk : PubOracle := ⟨⟨false, true, true⟩, ⟨true, true, true⟩, true, true⟩

/-- Oracle in which the first connect succeeds but its channel open fails,
and the retry fully succeeds. -/
def oracleChannelLeak : PubOracle := ⟨⟨true, false, true⟩, ⟨true, true, true⟩, true, true⟩

/-- Oracle in which everything succeeds. -/
def oracleAllOk : PubOracle := ⟨⟨true, true, true⟩, ⟨true, true, true⟩, true, true⟩

/-- Claim C3: `publish` makes at most two `_ensure_channel` attempts; if the
first succeeds there is exactly one; if the first fails with any error there
is exactly one more, after which the publish proceeds when the retry
succeeded and the retry error propagates to the caller when it failed. -/
theorem c3_publish_retries_ensure_exactly_once (o : PubOracle) (s : PubState) :
    (publish o s).2.2 ≤ 2 ∧
    ((ensureChannel o.ens1 s).2 = none → (publish o s).2.2 = 1) ∧
    ((ensureChannel o.ens1 s).2 ≠ none →
      (publish o s).2.2 = 2 ∧
      ((ensureChannel o.ens2 (ensureChannel o.ens1 s).1).2 = none →
        (publish o s).2.1 =
          (publishBody o (ensureChannel o.ens2 (ensureChannel o.ens1 s).1).1).2) ∧
      (∀ e2, (ensureChannel o.ens2 (ensureChannel o.ens1 s).1).2 = some e2 →
        (publish o s).2.1 = some e2)) := by
  rcases h1 : ensureChannel o.ens1 s with ⟨s1, e1⟩
  cases e1 with
  | none =>
    refine ⟨?_, fun _ => ?_, fun hne => absurd rfl hne⟩ <;>
      simp [publish, h1]
  | some e =>
    rcases h2 : ensureChannel o.ens2 s1 with ⟨s2, e2⟩
    cases e2 with
    | none =>
      refine ⟨?_, fun hc => ?_, fun _ => ⟨?_, fun _ => ?_, fun e2 he2 => ?_⟩⟩
      · simp [publish, h1, h2]
      · simp [h1] at hc
      · simp [publish, h1, h2]
      · simp [publish, h1, h2]
      · simp [h2] at he2
    | some e2 =>
      refine ⟨?_, fun hc => ?_, fun _ => ⟨?_, fun hc2 => ?_, fun e2x he2 => ?_⟩⟩
      · simp [publish, h1, h2]
      · simp [h1] at hc
      · simp [publish, h1, h2]
      · simp [h2] at hc2
      · simp [h2] at he2
        simp [publish, h1, h2, he2]

/-- Witness for C3: with a refused first connect and a successful retry, the
publish makes exactly two ensure-channel attempts. -/
theorem c3_publish_retries_ensure_exactly_once_witness :
    (ensureChannel oracleRetryOk.ens1 PubState.init).2 ≠ none ∧
    (publish oracleRetryOk PubState.init).2.2 = 2 :=
  ⟨by decide,
   ((c3_publish_retries_ensure_exactly_once oracleRetryOk PubState.init).2.2
      (by decide)).1⟩

/-- Counterexample to C5 as stated: starting from a fresh publisher, one
`publish` call in which the first connect succeeds, the first channel open
fails, and the retry fully succeeds, leaves TWO live connections (the first
one is never closed), refuting "at most one live Connection Session at any
time" under arbitrary channel-open failures. -/
theorem c5_counterexample_two_live_sessions :
    (publish oracleChannelLeak PubState.init).1.live = [0, 1] ∧
    ¬((publish oracleChannelLeak PubState.init).1.live.length ≤ 1) := by
  decide

/-- Well-formed publisher state: the three cached fields point at the same
connection (all absent or all the same id) and the ghost live list contains
exactly the cached connection. The state reached after a successful connect
whose channel open failed is NOT well-formed: that is the leak. -/
def goodPub (s : PubState) : Prop :=
  s.transport = s.protocol ∧ s.channel = s.protocol ∧ s.live = s.protocol.toList

/-- Calls whose oracles never make `protocol.channel()` fail. -/
def chanOk : PubCall → Bool
  | .publishC o => o.ens1.channelOk && o.ens2.channelOk
  | .shutdownC => true

theorem goodPub_pClose (s : PubState) (h : goodPub s) : goodPub (pClose s) := by
  obtain ⟨t, p, c, live, n⟩ := s
  obtain ⟨ht, hc, hl⟩ := h
  cases p with
  | none =>
    refine ⟨rfl, rfl, ?_⟩
    simpa [pClose, pReset] using hl
  | some id =>
    refine ⟨rfl, rfl, ?_⟩
    simp at hl
    simp [pClose, pReset, hl]

theorem goodPub_ensureChannel (o : EnsOracle) (s : PubState)
    (h : goodPub s) (hch : o.channelOk = true) : goodPub (ensureChannel o s).1 := by
  obtain ⟨t, p, c, live, n⟩ := s
  obtain ⟨ht0, hc0, hl0⟩ := h
  have ht : t = p := ht0
  have hc : c = p := hc0
  have hl : live = p.toList := hl0
  subst ht
  subst hc
  subst hl
  cases c with
  | none =>
    cases hco : o.connectOk with
    | true =>
      cases heo : o.ensureOpenOk with
      | true =>
        simp [ensureChannel, PubState.connected, hco, hch, heo, goodPub, Option.toList]
      | false =>
        simp [ensureChannel, PubState.connected, hco, hch, heo, goodPub, pClose,
          pReset, Option.toList, List.erase_cons_head]
    | false =>
      simp [ensureChannel, PubState.connected, hco, goodPub, Option.toList]
  | some id =>
    cases heo : o.ensureOpenOk with
    | true =>
      simp [ensureChannel, PubState.connected, heo, goodPub, Option.toList]
    | false =>
      simp [ensureChannel, PubState.connected, heo, goodPub, pClose,
        pReset, Option.toList, List.erase_cons_head]

theorem goodPub_publish (o : PubOracle) (s : PubState) (h : goodPub s)
    (h1 : o.ens1.channelOk = true) (h2 : o.ens2.channelOk = true) :
    goodPub (publish o s).1 := by
  have g1 := goodPub_ensureChannel o.ens1 s h h1
  rcases he1 : ensureChannel o.ens1 s with ⟨s1, e1⟩
  rw [he1] at g1
  cases e1 with
  | none =>
    have : (publish o s).1 = (publishBody o s1).1 := by
      simp [publish, he1]
    rw [this]
    have : (publishBody o s1).1 = s1 := by
      simp [publishBody]
      split <;> [skip; rfl]
      split <;> rfl
    rw [this]
    exact g1
  | some e =>
    have g2 := goodPub_ensureChannel o.ens2 s1 g1 h2
    rcases he2 : ensureChannel o.ens2 s1 with ⟨s2, e2⟩
    rw [he2] at g2
    cases e2 with
    | none =>
      have : (publish o s).1 = (publishBody o s2).1 := by
        simp [publish, he1, he2]
      rw [this]
      have : (publishBody o s2).1 = s2 := by
        simp [publishBody]
        split <;> [skip; rfl]
        split <;> rfl
      rw [this]
      exact g2
    | some e2 =>
      have : (publish o s).1 = s2 := by
        simp [publish, he1, he2]
      rw [this]
      exact g2

theorem goodPub_pubRun (calls : List PubCall) (s : PubState) (h : goodPub s)
    (hall : ∀ c ∈ calls, chanOk c = true) : goodPub (pubRun calls s) := by
  induction calls generalizing s with
  | nil => exact h
  | cons c cs ih =>
    have hc := hall c (List.mem_cons_self c cs)
    have hrest : ∀ c2 ∈ cs, chanOk c2 = true :=
      fun c2 hm => hall c2 (List.mem_cons_of_mem c hm)
    cases c with
    | publishC o =>
      have h1 : o.ens1.channelOk = true := by
        simp [chanOk] at hc
        exact hc.1
      have h2 : o.ens2.channelOk = true := by
        simp [chanOk] at hc
        exact hc.2
      exact ih (pubCallStep (.publishC o) s) (goodPub_publish o s h h1 h2) hrest
    | shutdownC =>
      exact ih (pubCallStep .shutdownC s) (goodPub_pClose s h) hrest

/-- Amended Claim C5: in every sequence of publish and shutdown calls whose
oracles never fail the channel-open step, the publisher holds at most one
live connection at any time, and whenever a cached session is present but
its ensure-open check fails, `_ensure_channel` closes and discards that
session (nothing stays cached or live) and propagates the failure. The
restriction to channel-open successes is forced by
`c5_counterexample_two_live_sessions`: a connect whose channel open fails
leaks the connection. -/
theorem c5_amended_at_most_one_live_session (calls : List PubCall)
    (hall : ∀ c ∈ calls, chanOk c = true) :
    (pubRun calls PubState.init).live.length ≤ 1 ∧
    (∀ (o : EnsOracle) (s : PubState), goodPub s → s.connected = true →
      o.ensureOpenOk = false →
      (ensureChannel o s).1.protocol = none ∧
      (ensureChannel o s).1.channel = none ∧
      (ensureChannel o s).1.live = [] ∧
      (ensureChannel o s).2 = some .ensureOpenFail) := by
  constructor
  · have hg := goodPub_pubRun calls PubState.init ⟨rfl, rfl, rfl⟩ hall
    obtain ⟨-, -, hl⟩ := hg
    rw [hl]
    cases (pubRun calls PubState.init).protocol <;> simp [Option.toList]
  · intro o s hg hconn heo
    obtain ⟨t, p, c, live, n⟩ := s
    obtain ⟨ht0, hc0, hl0⟩ := hg
    have ht : t = p := ht0
    have hc : c = p := hc0
    have hl : live = p.toList := hl0
    subst ht
    subst hc
    subst hl
    cases c with
    | none => simp [PubState.connected] at hconn
    | some id =>
      refine ⟨?_, ?_, ?_, ?_⟩ <;>
        simp [ensureChannel, PubState.connected, heo, pClose, pReset, Option.toList]

/-- Witness for the amended C5: two successful publishes followed by a
shutdown leave at most one live connection, and a cached session whose
ensure-open fails is fully discarded. -/
theorem c5_amended_at_most_one_live_session_witness :
    (pubRun [PubCall.publishC oracleAllOk, PubCall.publishC oracleAllOk,
      PubCall.shutdownC] PubState.init).live.length ≤ 1 ∧
    (ensureChannel ⟨true, true, false⟩
      ⟨some 0, some 0, some 0, [0], 1⟩).1.protocol = none :=
  ⟨(c5_amended_at_most_one_live_session
      [PubCall.publishC oracleAllOk, PubCall.publishC oracleAllOk,
       PubCall.shutdownC] (by decide)).1,
   ((c5_amended_at_most_one_live_session [] (by decide)).2 ⟨true, true, false⟩
      ⟨some 0, some 0, some 0, [0], 1⟩ ⟨rfl, rfl, rfl⟩ rfl rfl).1⟩


/-- Model of an `asyncio.Queue`: `maxsize` 0 means unbounded (the handler's
queue is created as `asyncio.Queue(loop=...)`, i.e. unbounded), and `items`
the queued elements in FIFO order. Elements stand for log records. -/
structure AQueue where
  maxsize : Nat
  items : List Nat
  deriving DecidableEq, Repr

/-- Errors `self._queue.put_nowait(record)` can raise in `emit`: the
`AttributeError` of calling `put_nowait` on `None` (before `startup` or
after `shutdown`), and `asyncio.QueueFull`. -/
inductive EmitErr where
  | attributeError
  | queueFull
  deriving DecidableEq, Repr

/-- The `put_nowait` call made by `EventLogHandler.emit`: raises
`AttributeError` when the queue is not initialized, `QueueFull` when a
bounded queue is at capacity, and otherwise appends without suspending. -/
def put_nowait (q : Option AQueue) (x : Nat) : Except EmitErr AQueue :=
  match q with
  | none => .error .attributeError
  | some qq =>
    if 0 < qq.maxsize ∧ qq.maxsize ≤ qq.items.length then .error .queueFull
    else .ok { qq with items := qq.items ++ [x] }

/-- The `emit` method: try the non-blocking enqueue and swallow
`AttributeError` and `QueueFull`, leaving the queue as it was. -/
def emit (q : Option AQueue) (x : Nat) : Option AQueue :=
  match put_nowait q x with
  | .ok q2 => some q2
  | .error _ => q

/-- Claim C9: `emit` never propagates an error: every failing `put_nowait`
is caught and leaves the queue unchanged (the record is silently dropped
when the queue is uninitialized or full), and a successful `put_nowait`
appends the record at the tail. -/
theorem c9_emit_total_drops_on_full_or_uninit (q : Option AQueue) (x : Nat) :
    ((put_nowait q x).isOk = false → emit q x = q) ∧
    (q = none → emit q x = none) ∧
    (∀ qq, q = some qq → 0 < qq.maxsize → qq.maxsize ≤ qq.items.length →
      emit q x = q) ∧
    (∀ qq, q = some qq → ¬(0 < qq.maxsize ∧ qq.maxsize ≤ qq.items.length) →
      emit q x = some { qq with items := qq.items ++ [x] }) := by
  refine ⟨?_, ?_, ?_, ?_⟩
  · intro hfail
    cases q with
    | none => rfl
    | some qq =>
      simp only [emit, put_nowait] at hfail ⊢
      by_cases hfull : 0 < qq.maxsize ∧ qq.maxsize ≤ qq.items.length
      · simp [hfull]
      · simp [Except.isOk, Except.toBool, hfull] at hfail
  · intro hq
    subst hq
    rfl
  · intro qq hq h1 h2
    subst hq
    simp [emit, put_nowait, h1, h2]
  · intro qq hq hnf
    subst hq
    simp [emit, put_nowait, hnf]

/-- Witness for C9: an uninitialized queue drops the record; a full bounded
queue drops the record; the handler's unbounded queue accepts it. -/
theorem c9_emit_total_drops_on_full_or_uninit_witness :
    emit none 7 = none ∧
    emit (some ⟨1, [3]⟩) 7 = some ⟨1, [3]⟩ ∧
    emit (some ⟨0, [3]⟩) 7 = some ⟨0, [3, 7]⟩ :=
  ⟨(c9_emit_total_drops_on_full_or_uninit none 7).2.1 rfl,
   (c9_emit_total_drops_on_full_or_uninit (some ⟨1, [3]⟩) 7).2.2.1 ⟨1, [3]⟩ rfl
     (by decide) (by decide),
   (c9_emit_total_drops_on_full_or_uninit (some ⟨0, [3]⟩) 7).2.2.2 ⟨0, [3]⟩ rfl
     (by decide)⟩

/-- State of the `EventLogHandler._run` drain loop: the queue contents, the
loop's `record` variable (`some r` when a dequeued record is still
undelivered), and ghost histories of successfully published records and of
all records ever enqueued, in order. -/
structure HState where
  queue : List Nat
  record : Option Nat
  published : List Nat
  emitted : List Nat
  deriving DecidableEq, Repr

/-- Handler state right after `startup`. -/
def HState.init : HState :=
  { queue := [], record := none, published := [], emitted := [] }

/-- One observable step of the log handler: an `emit` that enqueues a
record (the handler queue is unbounded, so an initialized queue always
accepts), or one iteration of the `_run` loop with its publish outcome. -/
inductive HAct where
  | emitA (r : Nat)
  | iter (pubOk : Bool)
  deriving DecidableEq, Repr

/-- One transition of the handler machine. An iteration takes the retained
record if there is one (`record = record or await self._queue.get()`),
otherwise dequeues; on publish success the record variable is cleared, on
failure the loop sleeps and keeps the record. With an empty queue and no
retained record the iteration blocks in `get()` (a no-op here). -/
def hstep : HAct → HState → HState
  | .emitA r, s => { s with queue := s.queue ++ [r], emitted := s.emitted ++ [r] }
  | .iter pubOk, s =>
    match s.record with
    | some r =>
      if pubOk then { s with published := s.published ++ [r], record := none }
      else s
    | none =>
      match s.queue with
      | [] => s
      | q :: qs =>
        if pubOk then { s with queue := qs, published := s.published ++ [q] }
        else { s with queue := qs, record := some q }

/-- Run the handler machine over an action sequence. -/
def hrun : List HAct → HState → HState
  | [], s => s
  | a :: as, s => hrun as (hstep a s)

/-- Handler invariant: the emit history equals the published records,
followed by the retained record, followed by the queue — no record is
dropped or reordered between enqueue and publish. -/
def HInv (s : HState) : Prop :=
  s.emitted = s.published ++ s.record.toList ++ s.queue

theorem hinv_step (a : HAct) (s : HState) (h : HInv s) : HInv (hstep a s) := by
  obtain ⟨queue, record, published, emitted⟩ := s
  have hh : emitted = published ++ record.toList ++ queue := h
  cases a with
  | emitA r =>
    show emitted ++ [r] = published ++ record.toList ++ (queue ++ [r])
    simp [hh]
  | iter pubOk =>
    cases record with
    | some r =>
      cases pubOk with
      | true =>
        show emitted = (published ++ [r]) ++ (none : Option Nat).toList ++ queue
        simpa [Option.toList] using hh
      | false => exact h
    | none =>
      cases queue with
      | nil => exact h
      | cons q qs =>
        cases pubOk with
        | true =>
          show emitted = (published ++ [q]) ++ (none : Option Nat).toList ++ qs
          simpa [Option.toList] using hh
        | false =>
          show emitted = published ++ (some q).toList ++ qs
          simpa [Option.toList] using hh

theorem hinv_run (acts : List HAct) (s : HState) (h : HInv s) : HInv (hrun acts s) := by
  induction acts generalizing s with
  | nil => exact h
  | cons a as ih => exact ih (hstep a s) (hinv_step a s h)

/-- Claim C8: in every run of the drain loop, emitted records are exactly
the published ones followed by the retained record and the queued ones, in
original order (nothing dropped, nothing reordered); a failing publish
leaves the state unchanged, retaining the record; when a record is
retained, the next successful publish delivers exactly that record before
any queued one; and a failing iteration never clears the record variable. -/
theorem c8_publish_failure_retains_record_in_order (acts : List HAct) :
    HInv (hrun acts HState.init) ∧
    (∀ (s : HState) (r : Nat), s.record = some r →
      hstep (.iter false) s = s ∧
      hstep (.iter true) s = { s with published := s.published ++ [r], record := none }) ∧
    (∀ s : HState, (hstep (.iter false) s).record = none → s.record = none) := by
  refine ⟨hinv_run acts HState.init rfl, ?_, ?_⟩
  · intro s r hr
    obtain ⟨queue, record, published, emitted⟩ := s
    have hr2 : record = some r := hr
    subst hr2
    exact ⟨rfl, rfl⟩
  · intro s hcl
    obtain ⟨queue, record, published, emitted⟩ := s
    cases record with
    | none => rfl
    | some r => exact absurd hcl (by simp [hstep])

/-- Witness for C8: record 7 is dequeued, its publish fails and it is
retained; record 8 arrives; the retry publishes 7 first. -/
theorem c8_publish_failure_retains_record_in_order_witness :
    HInv (hrun [HAct.emitA 7, HAct.iter false, HAct.emitA 8, HAct.iter true]
      HState.init) ∧
    hstep (.iter false) ⟨[8], some 7, [], [7, 8]⟩ = ⟨[8], some 7, [], [7, 8]⟩ ∧
    hstep (.iter true) ⟨[8], some 7, [], [7, 8]⟩ = ⟨[8], none, [] ++ [7], [7, 8]⟩ :=
  ⟨(c8_publish_failure_retains_record_in_order
      [HAct.emitA 7, HAct.iter false, HAct.emitA 8, HAct.iter true]).1,
   ((c8_publish_failure_retains_record_in_order []).2.1 ⟨[8], some 7, [], [7, 8]⟩ 7
      rfl).1,
   ((c8_publish_failure_retains_record_in_order []).2.1 ⟨[8], some 7, [], [7, 8]⟩ 7
      rfl).2⟩


mutual
/-- JSON values as handled by the Python `json` module on this code path:
`None`, booleans, integers, strings, lists and (insertion-ordered) dicts.
Strings are lists of characters. Floats and non-ASCII escape sequences of
`json.dumps(ensure_ascii=True)` are outside the model; the quote and
backslash escapes are modelled. -/
inductive JValue where
  | jnull
  | jbool (b : Bool)
  | jint (n : Int)
  | jstr (s : List Char)
  | jarr (xs : JArr)
  | jobj (kvs : JObj)
  deriving DecidableEq, Repr
inductive JArr where
  | nil
  | cons (v : JValue) (rest : JArr)
  deriving DecidableEq, Repr
inductive JObj where
  | nil
  | cons (k : List Char) (v : JValue) (rest : JObj)
  deriving DecidableEq, Repr
end

/-- Opening brace character. -/
def lbrace : Char := '\x7b'

/-- Closing brace character. -/
def rbrace : Char := '\x7d'

/-- String escaping of `json.dumps` restricted to the quote and backslash
escapes. -/
def escapeChar (c : Char) : List Char :=
  if c = '"' ∨ c = '\\' then ['\\', c] else [c]

/-- Escape every character of a string body. -/
def escapeList : List Char → List Char
  | [] => []
  | c :: cs => escapeChar c ++ escapeList cs

/-- Decimal digit character for `d < 10`. -/
def digitChar (d : Nat) : Char := Char.ofNat (48 + d)

/-- Fuelled decimal rendering of a natural number (the fuel bounds the
number of digits; any fuel above the argument is enough). -/
def natToCharsAux : Nat → Nat → List Char
  | 0, _ => []
  | fuel + 1, n =>
    if n < 10 then [digitChar n]
    else natToCharsAux fuel (n / 10) ++ [digitChar (n % 10)]

/-- Decimal rendering of a natural number, as Python `str` produces it. -/
def natToChars (n : Nat) : List Char := natToCharsAux (n + 1) n

/-- Decimal rendering of an integer, as Python `str` produces it. -/
def intToChars (i : Int) : List Char :=
  if i < 0 then '-' :: natToChars i.natAbs else natToChars i.natAbs

mutual
/-- Model of `json.dumps` with the default separators `", "` and `": "`,
over the characters of the produced string. Python dicts preserve insertion
order and `json.dumps` serializes keys in that order. -/
def dumpsV : JValue → List Char
  | .jnull => ['n', 'u', 'l', 'l']
  | .jbool true => ['t', 'r', 'u', 'e']
  | .jbool false => ['f', 'a', 'l', 's', 'e']
  | .jint i => intToChars i
  | .jstr s => '"' :: escapeList s ++ ['"']
  | .jarr .nil => ['[', ']']
  | .jarr (.cons v vs) => '[' :: (dumpsV v ++ dumpsArrTail vs) ++ [']']
  | .jobj .nil => [lbrace, rbrace]
  | .jobj (.cons k v kvs) => lbrace :: (dumpsKV k v ++ dumpsObjTail kvs) ++ [rbrace]
def dumpsKV (k : List Char) (v : JValue) : List Char :=
  '"' :: escapeList k ++ '"' :: ':' :: ' ' :: dumpsV v
def dumpsArrTail : JArr → List Char
  | .nil => []
  | .cons v vs => ',' :: ' ' :: dumpsV v ++ dumpsArrTail vs
def dumpsObjTail : JObj → List Char
  | .nil => []
  | .cons k v kvs => ',' :: ' ' :: dumpsKV k v ++ dumpsObjTail kvs
end

/-- Expect a literal character sequence and return the remainder. -/
def expectChars : List Char → List Char → Option (List Char)
  | [], cs => some cs
  | _ :: _, [] => none
  | l :: ls, c :: cs => if c = l then expectChars ls cs else none

/-- Prepend a character to the string being accumulated by the string
parser. -/
def omap (c : Char) : Option (List Char × List Char) → Option (List Char × List Char)
  | some (s, r) => some (c :: s, r)
  | none => none

mutual
/-- Parse the body of a JSON string after the opening quote, un-escaping
the quote and backslash escapes, up to the closing quote. -/
def parseStringBody : List Char → Option (List Char × List Char)
  | [] => none
  | c :: cs =>
    if c = '\\' then parseEscape cs
    else if c = '"' then some ([], cs)
    else omap c (parseStringBody cs)
def parseEscape : List Char → Option (List Char × List Char)
  | [] => none
  | e :: cs2 =>
    if e = '"' ∨ e = '\\' then omap e (parseStringBody cs2) else none
end

/-- Longest leading run of decimal digits, and the remainder. -/
def takeDigits : List Char → List Char × List Char
  | [] => ([], [])
  | c :: cs =>
    if c.isDigit then
      let p := takeDigits cs
      (c :: p.1, p.2)
    else ([], c :: cs)

/-- Numeric value of a digit character. -/
def digitVal (c : Char) : Nat := c.toNat - 48

/-- Accumulating decimal evaluation of a digit string. -/
def digitsToNatAux (acc : Nat) : List Char → Nat
  | [] => acc
  | c :: cs => digitsToNatAux (10 * acc + digitVal c) cs

/-- Decimal value of a digit string. -/
def digitsToNat (ds : List Char) : Nat := digitsToNatAux 0 ds

/-- Parse a nonempty run of digits into a natural number. -/
def parseIntCore (cs : List Char) : Option (Nat × List Char) :=
  let p := takeDigits cs
  if p.1.isEmpty then none else some (digitsToNat p.1, p.2)

/-- Parse a JSON integer (optional minus sign, then digits). -/
def parseInt : List Char → Option (Int × List Char)
  | [] => none
  | c :: cs =>
    if c = '-' then
      match parseIntCore cs with
      | some (n2, rest) => some (-(n2 : Int), rest)
      | none => none
    else
      match parseIntCore (c :: cs) with
      | some (n2, rest) => some ((n2 : Int), rest)
      | none => none

mutual
/-- Model of the `json.loads` grammar restricted to the exact shape
`json.dumps` emits (no extraneous whitespace, integer numbers): a
recursive-descent parser with explicit fuel. -/
def parseV : Nat → List Char → Option (JValue × List Char)
  | 0, _ => none
  | _ + 1, [] => none
  | fuel + 1, c :: cs =>
    if c = 'n' then
      match expectChars ['u', 'l', 'l'] cs with
      | some r => some (.jnull, r)
      | none => none
    else if c = 't' then
      match expectChars ['r', 'u', 'e'] cs with
      | some r => some (.jbool true, r)
      | none => none
    else if c = 'f' then
      match expectChars ['a', 'l', 's', 'e'] cs with
      | some r => some (.jbool false, r)
      | none => none
    else if c = '"' then
      match parseStringBody cs with
      | some (str, r) => some (.jstr str, r)
      | none => none
    else if c = '[' then
      match cs with
      | [] => none
      | d :: ds =>
        if d = ']' then some (.jarr .nil, ds)
        else
          match parseV fuel (d :: ds) with
          | some (v, r1) =>
            match parseArrTail fuel r1 with
            | some (vs, r2) => some (.jarr (.cons v vs), r2)
            | none => none
          | none => none
    else if c = lbrace then
      match cs with
      | [] => none
      | d :: ds =>
        if d = rbrace then some (.jobj .nil, ds)
        else
          match parseKV fuel (d :: ds) with
          | some (kv, r1) =>
            match parseObjTail fuel r1 with
            | some (kvs, r2) => some (.jobj (.cons kv.1 kv.2 kvs), r2)
            | none => none
          | none => none
    else
      match parseInt (c :: cs) with
      | some (i, rest) => some (.jint i, rest)
      | none => none
def parseArrTail : Nat → List Char → Option (JArr × List Char)
  | 0, _ => none
  | _ + 1, [] => none
  | fuel + 1, c :: cs =>
    if c = ']' then some (.nil, cs)
    else if c = ',' then
      match cs with
      | ' ' :: cs2 =>
        match parseV fuel cs2 with
        | some (v, r1) =>
          match parseArrTail fuel r1 with
          | some (vs, r2) => some (.cons v vs, r2)
          | none => none
        | none => none
      | _ => none
    else none
def parseKV : Nat → List Char → Option ((List Char × JValue) × List Char)
  | 0, _ => none
  | _ + 1, [] => none
  | fuel + 1, c :: cs =>
    if c = '"' then
      match parseStringBody cs with
      | some (k, r1) =>
        match r1 with
        | ':' :: ' ' :: r2 =>
          match parseV fuel r2 with
          | some (v, r3) => some ((k, v), r3)
          | none => none
        | _ => none
      | none => none
    else none
def parseObjTail : Nat → List Char → Option (JObj × List Char)
  | 0, _ => none
  | _ + 1, [] => none
  | fuel + 1, c :: cs =>
    if c = rbrace then some (.nil, cs)
    else if c = ',' then
      match cs with
      | ' ' :: cs2 =>
        match parseKV fuel cs2 with
        | some (kv, r1) =>
          match parseObjTail fuel r1 with
          | some (kvs, r2) => some (.cons kv.1 kv.2 kvs, r2)
          | none => none
        | none => none
      | _ => none
    else none
end

/-- Model of `json.loads` over the characters of the message body: parse one
value and require the input to be fully consumed. The fuel is sufficient
for every output of `dumpsV` (see `loads_dumps`). -/
def loads (cs : List Char) : Option JValue :=
  match parseV (2 * cs.length + 2) cs with
  | some (v, []) => some v
  | _ => none


theorem expectChars_append (ls rest : List Char) :
    expectChars ls (ls ++ rest) = some rest := by
  induction ls with
  | nil => rfl
  | cons l ls ih => simp [expectChars, ih]

theorem parseStringBody_escape (s rest : List Char) :
    parseStringBody (escapeList s ++ '"' :: rest) = some (s, rest) := by
  induction s with
  | nil =>
    show parseStringBody ('"' :: rest) = some ([], rest)
    simp [parseStringBody]
  | cons c cs ih =>
    show parseStringBody ((escapeChar c ++ escapeList cs) ++ '"' :: rest) = _
    by_cases hc : c = '"' ∨ c = '\\'
    · rw [escapeChar, if_pos hc]
      rcases hc with hc | hc <;> subst hc <;>
        simp [parseStringBody, parseEscape, omap, ih]
    · have h1 : ¬(c = '\\') := fun h => hc (Or.inr h)
      have h2 : ¬(c = '"') := fun h => hc (Or.inl h)
      rw [escapeChar, if_neg hc]
      simp [parseStringBody, h1, h2, omap, ih]

theorem digitChar_isDigit (d : Nat) (h : d < 10) : (digitChar d).isDigit = true := by
  interval_cases d <;> decide

theorem digitVal_digitChar (d : Nat) (h : d < 10) : digitVal (digitChar d) = d := by
  interval_cases d <;> decide

theorem natToCharsAux_all_digits (fuel : Nat) :
    ∀ n, n < fuel → ∀ c ∈ natToCharsAux fuel n, c.isDigit = true := by
  induction fuel with
  | zero => omega
  | succ fuel ih =>
    intro n hn c hc
    by_cases h10 : n < 10
    · simp [natToCharsAux, h10] at hc
      subst hc
      exact digitChar_isDigit n h10
    · simp [natToCharsAux, h10] at hc
      rcases hc with hc | hc
      · have hdiv : n / 10 < fuel := by
          have := Nat.div_lt_self (show 0 < n by omega) (show (1 : Nat) < 10 by omega)
          omega
        exact ih (n / 10) hdiv c hc
      · subst hc
        exact digitChar_isDigit _ (Nat.mod_lt _ (by omega))

theorem natToChars_all_digits (n : Nat) : ∀ c ∈ natToChars n, c.isDigit = true :=
  natToCharsAux_all_digits (n + 1) n (by omega)

theorem digitsToNatAux_append (ds : List Char) (acc : Nat) (d : Char) :
    digitsToNatAux acc (ds ++ [d]) = 10 * digitsToNatAux acc ds + digitVal d := by
  induction ds generalizing acc with
  | nil => rfl
  | cons c cs ih =>
    show digitsToNatAux (10 * acc + digitVal c) (cs ++ [d]) =
      10 * digitsToNatAux (10 * acc + digitVal c) cs + digitVal d
    exact ih (10 * acc + digitVal c)

theorem digitsToNat_natToCharsAux (fuel : Nat) :
    ∀ n, n < fuel → digitsToNat (natToCharsAux fuel n) = n := by
  induction fuel with
  | zero => omega
  | succ fuel ih =>
    intro n hn
    by_cases h10 : n < 10
    · simp only [natToCharsAux]
      rw [if_pos h10]
      show 10 * 0 + digitVal (digitChar n) = n
      rw [digitVal_digitChar n h10]
      omega
    · have hdiv : n / 10 < fuel := by
        have := Nat.div_lt_self (show 0 < n by omega) (show (1 : Nat) < 10 by omega)
        omega
      simp only [natToCharsAux]
      rw [if_neg h10]
      show digitsToNatAux 0 (natToCharsAux fuel (n / 10) ++ [digitChar (n % 10)]) = n
      rw [digitsToNatAux_append]
      have h1 : digitsToNatAux 0 (natToCharsAux fuel (n / 10)) = n / 10 := ih (n / 10) hdiv
      rw [h1, digitVal_digitChar _ (Nat.mod_lt _ (by omega))]
      omega

theorem digitsToNat_natToChars (n : Nat) : digitsToNat (natToChars n) = n :=
  digitsToNat_natToCharsAux (n + 1) n (by omega)

theorem natToChars_ne_nil (n : Nat) : natToChars n ≠ [] := by
  by_cases h10 : n < 10 <;> simp [natToChars, natToCharsAux, h10]

/-- The first character of the remainder must not extend the token just
parsed (used for the end of a number). -/
def headNotDigit : List Char → Prop
  | [] => True
  | c :: _ => c.isDigit = false

theorem takeDigits_append (ds rest : List Char)
    (hds : ∀ c ∈ ds, c.isDigit = true) (hrest : headNotDigit rest) :
    takeDigits (ds ++ rest) = (ds, rest) := by
  induction ds with
  | nil =>
    cases rest with
    | nil => rfl
    | cons c cs =>
      have hcd : c.isDigit = false := hrest
      simp [takeDigits, hcd]
  | cons d ds ih =>
    have hd : d.isDigit = true := hds d (by simp)
    have hds2 : ∀ c ∈ ds, c.isDigit = true := fun c hc => hds c (by simp [hc])
    simp [takeDigits, hd, ih hds2]

theorem parseIntCore_digits (ds rest : List Char) (hne : ds ≠ [])
    (hds : ∀ c ∈ ds, c.isDigit = true) (hrest : headNotDigit rest) :
    parseIntCore (ds ++ rest) = some (digitsToNat ds, rest) := by
  simp [parseIntCore, takeDigits_append ds rest hds hrest, hne]

theorem isDigit_ne (c : Char) (h : c.isDigit = true) :
    c ≠ 'n' ∧ c ≠ 't' ∧ c ≠ 'f' ∧ c ≠ '"' ∧ c ≠ '[' ∧ c ≠ lbrace ∧ c ≠ '-' ∧
      c ≠ ']' ∧ c ≠ rbrace ∧ c ≠ ',' := by
  refine ⟨?_, ?_, ?_, ?_, ?_, ?_, ?_, ?_, ?_, ?_⟩ <;>
    (intro he; rw [he] at h; exact absurd h (by decide))

theorem parseInt_intToChars (i : Int) (rest : List Char) (hrest : headNotDigit rest) :
    parseInt (intToChars i ++ rest) = some (i, rest) := by
  by_cases hneg : i < 0
  · rw [intToChars, if_pos hneg]
    show parseInt ('-' :: (natToChars i.natAbs ++ rest)) = some (i, rest)
    rw [show parseInt ('-' :: (natToChars i.natAbs ++ rest)) =
      (match parseIntCore (natToChars i.natAbs ++ rest) with
       | some (n2, r) => some (-(n2 : Int), r)
       | none => none) from by simp [parseInt]]
    rw [parseIntCore_digits _ _ (natToChars_ne_nil _) (natToChars_all_digits _) hrest]
    rw [digitsToNat_natToChars]
    show some (-((i.natAbs : Nat) : Int), rest) = some (i, rest)
    have hval : -((i.natAbs : Nat) : Int) = i := by omega
    rw [hval]
  · rw [intToChars, if_neg hneg]
    obtain ⟨d0, ds0, hsh⟩ := List.exists_cons_of_ne_nil (natToChars_ne_nil i.natAbs)
    have hd0 : d0.isDigit = true := natToChars_all_digits i.natAbs d0 (by simp [hsh])
    have hdm : ¬(d0 = '-') := (isDigit_ne d0 hd0).2.2.2.2.2.2.1
    rw [hsh]
    show parseInt (d0 :: (ds0 ++ rest)) = some (i, rest)
    rw [show parseInt (d0 :: (ds0 ++ rest)) =
      (if d0 = '-' then
        (match parseIntCore (ds0 ++ rest) with
         | some (n2, r) => some (-(n2 : Int), r)
         | none => none)
      else
        (match parseIntCore (d0 :: (ds0 ++ rest)) with
         | some (n2, r) => some ((n2 : Int), r)
         | none => none)) from by simp [parseInt]]
    rw [if_neg hdm]
    rw [show d0 :: (ds0 ++ rest) = (d0 :: ds0) ++ rest from rfl, ← hsh]
    rw [parseIntCore_digits _ _ (natToChars_ne_nil _) (natToChars_all_digits _) hrest]
    rw [digitsToNat_natToChars]
    show some (((i.natAbs : Nat) : Int), rest) = some (i, rest)
    have hval : ((i.natAbs : Nat) : Int) = i := by omega
    rw [hval]

theorem intToChars_head (i : Int) :
    ∃ c0 cs0, intToChars i = c0 :: cs0 ∧ (c0 = '-' ∨ c0.isDigit = true) := by
  by_cases hneg : i < 0
  · exact ⟨'-', natToChars i.natAbs, by simp [intToChars, hneg], Or.inl rfl⟩
  · obtain ⟨d0, ds0, hsh⟩ := List.exists_cons_of_ne_nil (natToChars_ne_nil i.natAbs)
    refine ⟨d0, ds0, by simp [intToChars, hneg, hsh], Or.inr ?_⟩
    exact natToChars_all_digits i.natAbs d0 (by simp [hsh])

theorem dumpsV_head (v : JValue) :
    ∃ c0 cs0, dumpsV v = c0 :: cs0 ∧ ¬(c0 = ']') ∧ ¬(c0 = rbrace) := by
  cases v with
  | jnull => exact ⟨'n', ['u', 'l', 'l'], by simp [dumpsV], by decide, by decide⟩
  | jbool b =>
    cases b with
    | true => exact ⟨'t', ['r', 'u', 'e'], by simp [dumpsV], by decide, by decide⟩
    | false => exact ⟨'f', ['a', 'l', 's', 'e'], by simp [dumpsV], by decide, by decide⟩
  | jint i =>
    obtain ⟨c0, cs0, hsh, hc⟩ := intToChars_head i
    refine ⟨c0, cs0, by rw [show dumpsV (JValue.jint i) = intToChars i from by simp [dumpsV], hsh], ?_, ?_⟩
    · rcases hc with hc | hc
      · subst hc; decide
      · exact (isDigit_ne c0 hc).2.2.2.2.2.2.2.1
    · rcases hc with hc | hc
      · subst hc; decide
      · exact (isDigit_ne c0 hc).2.2.2.2.2.2.2.2.1
  | jstr s => exact ⟨'"', escapeList s ++ ['"'], by simp [dumpsV], by decide, by decide⟩
  | jarr xs =>
    cases xs with
    | nil => exact ⟨'[', [']'], by simp [dumpsV], by decide, by decide⟩
    | cons v vs =>
      exact ⟨'[', (dumpsV v ++ dumpsArrTail vs) ++ [']'], by simp [dumpsV], by decide,
        by decide⟩
  | jobj kvs =>
    cases kvs with
    | nil => exact ⟨lbrace, [rbrace], by simp [dumpsV], by decide, by decide⟩
    | cons k v kvs =>
      exact ⟨lbrace, (dumpsKV k v ++ dumpsObjTail kvs) ++ [rbrace], by simp [dumpsV],
        by decide, by decide⟩

theorem headNotDigit_arrTail (vs : JArr) (rest : List Char) :
    headNotDigit (dumpsArrTail vs ++ ']' :: rest) := by
  cases vs with
  | nil =>
    rw [show dumpsArrTail JArr.nil = [] from by simp [dumpsArrTail]]
    show (']' : Char).isDigit = false
    decide
  | cons v vs2 =>
    rw [show dumpsArrTail (JArr.cons v vs2) = ',' :: ' ' :: dumpsV v ++ dumpsArrTail vs2
      from by simp [dumpsArrTail]]
    show (',' : Char).isDigit = false
    decide

theorem headNotDigit_objTail (kvs : JObj) (rest : List Char) :
    headNotDigit (dumpsObjTail kvs ++ rbrace :: rest) := by
  cases kvs with
  | nil =>
    rw [show dumpsObjTail JObj.nil = [] from by simp [dumpsObjTail]]
    show rbrace.isDigit = false
    decide
  | cons k v kvs2 =>
    rw [show dumpsObjTail (JObj.cons k v kvs2) = ',' :: ' ' :: dumpsKV k v ++ dumpsObjTail kvs2
      from by simp [dumpsObjTail]]
    show (',' : Char).isDigit = false
    decide


mutual
/-- Size measure used as a fuel bound for the parser. -/
def jsize : JValue → Nat
  | .jnull => 1
  | .jbool _ => 1
  | .jint _ => 1
  | .jstr _ => 1
  | .jarr xs => 1 + jsizeArr xs
  | .jobj kvs => 1 + jsizeObj kvs
def jsizeArr : JArr → Nat
  | .nil => 1
  | .cons v vs => 1 + jsize v + jsizeArr vs
def jsizeObj : JObj → Nat
  | .nil => 1
  | .cons _ v kvs => 1 + jsize v + jsizeObj kvs
end

theorem jsize_pos (v : JValue) : 1 ≤ jsize v := by
  cases v <;> simp [jsize] <;> omega

theorem jsizeArr_pos (vs : JArr) : 1 ≤ jsizeArr vs := by
  cases vs <;> simp [jsizeArr] <;> omega

theorem jsizeObj_pos (kvs : JObj) : 1 ≤ jsizeObj kvs := by
  cases kvs <;> simp [jsizeObj] <;> omega

mutual
theorem jsize_le_dumps (v : JValue) : jsize v ≤ 2 * (dumpsV v).length := by
  cases v with
  | jnull => simp [jsize, dumpsV]
  | jbool b => cases b <;> simp [jsize, dumpsV]
  | jint i =>
    obtain ⟨c0, cs0, hsh, -⟩ := intToChars_head i
    have e1 : jsize (JValue.jint i) = 1 := by simp [jsize]
    have e2 : (dumpsV (JValue.jint i)).length = cs0.length + 1 := by simp [dumpsV, hsh]
    omega
  | jstr str =>
    have e1 : jsize (JValue.jstr str) = 1 := by simp [jsize]
    have e2 : (dumpsV (JValue.jstr str)).length = (escapeList str).length + 2 := by
      simp [dumpsV]
    omega
  | jarr xs =>
    have e1 : jsize (JValue.jarr xs) = 1 + jsizeArr xs := by simp [jsize]
    cases xs with
    | nil =>
      have e2 : (dumpsV (JValue.jarr JArr.nil)).length = 2 := by simp [dumpsV]
      have e3 : jsizeArr JArr.nil = 1 := by simp [jsizeArr]
      omega
    | cons v vs =>
      have hv := jsize_le_dumps v
      have hvs := jsizeArr_le_dumps vs
      rw [show jsize (JValue.jarr (JArr.cons v vs)) =
        1 + jsizeArr (JArr.cons v vs) from by simp [jsize]]
      rw [show jsizeArr (JArr.cons v vs) = 1 + jsize v + jsizeArr vs from by
        simp [jsizeArr]]
      rw [show dumpsV (JValue.jarr (JArr.cons v vs)) =
        '[' :: (dumpsV v ++ dumpsArrTail vs) ++ [']'] from by simp [dumpsV]]
      simp only [List.length_append, List.length_cons, List.length_nil]
      omega
  | jobj kvs =>
    have e1 : jsize (JValue.jobj kvs) = 1 + jsizeObj kvs := by simp [jsize]
    cases kvs with
    | nil =>
      have e2 : (dumpsV (JValue.jobj JObj.nil)).length = 2 := by simp [dumpsV]
      have e3 : jsizeObj JObj.nil = 1 := by simp [jsizeObj]
      omega
    | cons k v kvs2 =>
      have hv := jsize_le_dumps v
      have hkvs := jsizeObj_le_dumps kvs2
      rw [show jsize (JValue.jobj (JObj.cons k v kvs2)) =
        1 + jsizeObj (JObj.cons k v kvs2) from by simp [jsize]]
      rw [show jsizeObj (JObj.cons k v kvs2) = 1 + jsize v + jsizeObj kvs2 from by
        simp [jsizeObj]]
      rw [show dumpsV (JValue.jobj (JObj.cons k v kvs2)) =
        lbrace :: (dumpsKV k v ++ dumpsObjTail kvs2) ++ [rbrace] from by simp [dumpsV]]
      rw [show dumpsKV k v = '"' :: escapeList k ++ '"' :: ':' :: ' ' :: dumpsV v from by
        simp [dumpsKV]]
      simp only [List.length_append, List.length_cons, List.length_nil]
      omega
theorem jsizeArr_le_dumps (vs : JArr) : jsizeArr vs ≤ 2 * (dumpsArrTail vs).length + 2 := by
  cases vs with
  | nil =>
    have e1 : jsizeArr JArr.nil = 1 := by simp [jsizeArr]
    omega
  | cons v vs2 =>
    have hv := jsize_le_dumps v
    have hvs := jsizeArr_le_dumps vs2
    rw [show jsizeArr (JArr.cons v vs2) = 1 + jsize v + jsizeArr vs2 from by simp [jsizeArr]]
    rw [show dumpsArrTail (JArr.cons v vs2) = ',' :: ' ' :: dumpsV v ++ dumpsArrTail vs2
      from by simp [dumpsArrTail]]
    simp only [List.length_append, List.length_cons, List.length_nil]
    omega
theorem jsizeObj_le_dumps (kvs : JObj) : jsizeObj kvs ≤ 2 * (dumpsObjTail kvs).length + 2 := by
  cases kvs with
  | nil =>
    have e1 : jsizeObj JObj.nil = 1 := by simp [jsizeObj]
    omega
  | cons k v kvs2 =>
    have hv := jsize_le_dumps v
    have hkvs := jsizeObj_le_dumps kvs2
    rw [show jsizeObj (JObj.cons k v kvs2) = 1 + jsize v + jsizeObj kvs2 from by
      simp [jsizeObj]]
    rw [show dumpsObjTail (JObj.cons k v kvs2) =
      ',' :: ' ' :: dumpsKV k v ++ dumpsObjTail kvs2 from by simp [dumpsObjTail]]
    rw [show dumpsKV k v = '"' :: escapeList k ++ '"' :: ':' :: ' ' :: dumpsV v from by
      simp [dumpsKV]]
    simp only [List.length_append, List.length_cons, List.length_nil]
    omega
end

theorem intHead_ne (c : Char) (h : c = '-' ∨ c.isDigit = true) :
    ¬(c = 'n') ∧ ¬(c = 't') ∧ ¬(c = 'f') ∧ ¬(c = '"') ∧ ¬(c = '[') ∧ ¬(c = lbrace) := by
  rcases h with h | h
  · subst h
    exact ⟨by decide, by decide, by decide, by decide, by decide, by decide⟩
  · obtain ⟨a1, a2, a3, a4, a5, a6, -, -, -, -⟩ := isDigit_ne c h
    exact ⟨a1, a2, a3, a4, a5, a6⟩

theorem parse_dumps_aux (fuel : Nat) :
    (∀ (v : JValue) (rest : List Char), jsize v < fuel → headNotDigit rest →
      parseV fuel (dumpsV v ++ rest) = some (v, rest)) ∧
    (∀ (vs : JArr) (rest : List Char), jsizeArr vs < fuel →
      parseArrTail fuel (dumpsArrTail vs ++ ']' :: rest) = some (vs, rest)) ∧
    (∀ (k : List Char) (v : JValue) (rest : List Char), jsize v + 1 < fuel →
      headNotDigit rest →
      parseKV fuel (dumpsKV k v ++ rest) = some ((k, v), rest)) ∧
    (∀ (kvs : JObj) (rest : List Char), jsizeObj kvs < fuel →
      parseObjTail fuel (dumpsObjTail kvs ++ rbrace :: rest) = some (kvs, rest)) := by
  induction fuel with
  | zero =>
    exact ⟨fun v rest h _ => absurd h (by omega),
      fun vs rest h => absurd h (by omega),
      fun k v rest h _ => absurd h (by omega),
      fun kvs rest h => absurd h (by omega)⟩
  | succ fuel ih =>
    obtain ⟨ihV, ihA, ihK, ihO⟩ := ih
    refine ⟨?_, ?_, ?_, ?_⟩
    · intro v rest hs hr
      cases v with
      | jnull =>
        rw [show dumpsV JValue.jnull = ['n', 'u', 'l', 'l'] from by simp [dumpsV]]
        simp [parseV, expectChars]
      | jbool b =>
        cases b with
        | true =>
          rw [show dumpsV (JValue.jbool true) = ['t', 'r', 'u', 'e'] from by simp [dumpsV]]
          simp [parseV, expectChars]
        | false =>
          rw [show dumpsV (JValue.jbool false) = ['f', 'a', 'l', 's', 'e'] from by
            simp [dumpsV]]
          simp [parseV, expectChars]
      | jint i =>
        obtain ⟨c0, cs0, hsh, hc⟩ := intToChars_head i
        obtain ⟨h1, h2, h3, h4, h5, h6⟩ := intHead_ne c0 hc
        rw [show dumpsV (JValue.jint i) = intToChars i from by simp [dumpsV], hsh]
        show parseV (fuel + 1) (c0 :: (cs0 ++ rest)) = some (JValue.jint i, rest)
        simp only [parseV]
        rw [if_neg h1, if_neg h2, if_neg h3, if_neg h4, if_neg h5, if_neg h6]
        rw [show c0 :: (cs0 ++ rest) = (c0 :: cs0) ++ rest from rfl, ← hsh]
        rw [parseInt_intToChars i rest hr]
      | jstr str =>
        rw [show dumpsV (JValue.jstr str) = '"' :: escapeList str ++ ['"'] from by
          simp [dumpsV]]
        rw [show ('"' :: escapeList str ++ ['"']) ++ rest =
          '"' :: (escapeList str ++ '"' :: rest) from by simp]
        simp only [parseV]
        rw [if_neg (show ¬(('"' : Char) = 'n') from by decide),
          if_neg (show ¬(('"' : Char) = 't') from by decide),
          if_neg (show ¬(('"' : Char) = 'f') from by decide)]
        first
          | rw [if_pos True.intro]
          | rw [if_pos (rfl : ('"' : Char) = '"')]
        rw [parseStringBody_escape]
      | jarr xs =>
        cases xs with
        | nil =>
          rw [show dumpsV (JValue.jarr JArr.nil) = ['[', ']'] from by simp [dumpsV]]
          simp [parseV]
        | cons v vs =>
          have e1 : jsize (JValue.jarr (JArr.cons v vs)) = 2 + jsize v + jsizeArr vs := by
            have a : jsize (JValue.jarr (JArr.cons v vs)) =
                1 + jsizeArr (JArr.cons v vs) := by simp [jsize]
            have b : jsizeArr (JArr.cons v vs) = 1 + jsize v + jsizeArr vs := by
              simp [jsizeArr]
            omega
          have hs1 : jsize v < fuel := by
            have := jsizeArr_pos vs
            omega
          have hs2 : jsizeArr vs < fuel := by
            have := jsize_pos v
            omega
          rw [show dumpsV (JValue.jarr (JArr.cons v vs)) =
            '[' :: (dumpsV v ++ dumpsArrTail vs) ++ [']'] from by simp [dumpsV]]
          rw [show ('[' :: (dumpsV v ++ dumpsArrTail vs) ++ [']']) ++ rest =
            '[' :: (dumpsV v ++ (dumpsArrTail vs ++ ']' :: rest)) from by simp]
          simp only [parseV]
          rw [if_neg (show ¬(('[' : Char) = 'n') from by decide),
            if_neg (show ¬(('[' : Char) = 't') from by decide),
            if_neg (show ¬(('[' : Char) = 'f') from by decide),
            if_neg (show ¬(('[' : Char) = '"') from by decide)]
          first
            | rw [if_pos True.intro]
            | rw [if_pos (rfl : ('[' : Char) = '[')]
          obtain ⟨c0, cs0, hsh, hne1, hne2⟩ := dumpsV_head v
          rw [hsh, List.cons_append]
          dsimp only
          rw [if_neg hne1]
          rw [← List.cons_append, ← hsh]
          rw [ihV v (dumpsArrTail vs ++ ']' :: rest) hs1 (headNotDigit_arrTail vs rest)]
          dsimp only
          rw [ihA vs rest hs2]
      | jobj kvs =>
        cases kvs with
        | nil =>
          rw [show dumpsV (JValue.jobj JObj.nil) = [lbrace, rbrace] from by simp [dumpsV]]
          simp [parseV, lbrace, rbrace]
        | cons k v kvs2 =>
          have e1 : jsize (JValue.jobj (JObj.cons k v kvs2)) =
              2 + jsize v + jsizeObj kvs2 := by
            have a : jsize (JValue.jobj (JObj.cons k v kvs2)) =
                1 + jsizeObj (JObj.cons k v kvs2) := by simp [jsize]
            have b : jsizeObj (JObj.cons k v kvs2) = 1 + jsize v + jsizeObj kvs2 := by
              simp [jsizeObj]
            omega
          have hs1 : jsize v + 1 < fuel := by
            have := jsizeObj_pos kvs2
            omega
          have hs2 : jsizeObj kvs2 < fuel := by
            have := jsize_pos v
            omega
          rw [show dumpsV (JValue.jobj (JObj.cons k v kvs2)) =
            lbrace :: (dumpsKV k v ++ dumpsObjTail kvs2) ++ [rbrace] from by simp [dumpsV]]
          rw [show (lbrace :: (dumpsKV k v ++ dumpsObjTail kvs2) ++ [rbrace]) ++ rest =
            lbrace :: (dumpsKV k v ++ (dumpsObjTail kvs2 ++ rbrace :: rest)) from by simp]
          simp only [parseV]
          rw [if_neg (show ¬(lbrace = 'n') from by decide),
            if_neg (show ¬(lbrace = 't') from by decide),
            if_neg (show ¬(lbrace = 'f') from by decide),
            if_neg (show ¬(lbrace = '"') from by decide),
            if_neg (show ¬(lbrace = '[') from by decide)]
          first
            | rw [if_pos True.intro]
            | rw [if_pos (rfl : lbrace = lbrace)]
          rw [show dumpsKV k v = '"' :: escapeList k ++ '"' :: ':' :: ' ' :: dumpsV v from by
            simp [dumpsKV]]
          show (match parseKV fuel
              (('"' :: escapeList k ++ '"' :: ':' :: ' ' :: dumpsV v) ++
                (dumpsObjTail kvs2 ++ rbrace :: rest)) with
            | some (kv, r1) =>
              match parseObjTail fuel r1 with
              | some (kvs3, r2) => some (JValue.jobj (JObj.cons kv.1 kv.2 kvs3), r2)
              | none => none
            | none => none) = some (JValue.jobj (JObj.cons k v kvs2), rest)
          rw [show ('"' :: escapeList k ++ '"' :: ':' :: ' ' :: dumpsV v) =
            dumpsKV k v from by simp [dumpsKV]]
          rw [ihK k v (dumpsObjTail kvs2 ++ rbrace :: rest) hs1
            (headNotDigit_objTail kvs2 rest)]
          dsimp only
          rw [ihO kvs2 rest hs2]
    · intro vs rest hsz
      cases vs with
      | nil =>
        rw [show dumpsArrTail JArr.nil = [] from by simp [dumpsArrTail]]
        simp [parseArrTail]
      | cons v vs2 =>
        have e1 : jsizeArr (JArr.cons v vs2) = 1 + jsize v + jsizeArr vs2 := by
          simp [jsizeArr]
        have hs1 : jsize v < fuel := by
          have := jsizeArr_pos vs2
          omega
        have hs2 : jsizeArr vs2 < fuel := by
          have := jsize_pos v
          omega
        rw [show dumpsArrTail (JArr.cons v vs2) = ',' :: ' ' :: dumpsV v ++ dumpsArrTail vs2
          from by simp [dumpsArrTail]]
        rw [show ((',' :: ' ' :: dumpsV v ++ dumpsArrTail vs2) ++ ']' :: rest) =
          ',' :: ' ' :: (dumpsV v ++ (dumpsArrTail vs2 ++ ']' :: rest)) from by simp]
        simp only [parseArrTail]
        rw [if_neg (show ¬((',' : Char) = ']') from by decide)]
        first
          | rw [if_pos True.intro]
          | rw [if_pos (rfl : (',' : Char) = ',')]
        show (match parseV fuel (dumpsV v ++ (dumpsArrTail vs2 ++ ']' :: rest)) with
          | some (v2, r1) =>
            match parseArrTail fuel r1 with
            | some (vs3, r2) => some (JArr.cons v2 vs3, r2)
            | none => none
          | none => none) = some (JArr.cons v vs2, rest)
        rw [ihV v (dumpsArrTail vs2 ++ ']' :: rest) hs1 (headNotDigit_arrTail vs2 rest)]
        dsimp only
        rw [ihA vs2 rest hs2]
    · intro k v rest hsz hr
      rw [show dumpsKV k v = '"' :: escapeList k ++ '"' :: ':' :: ' ' :: dumpsV v from by
        simp [dumpsKV]]
      rw [show (('"' :: escapeList k ++ '"' :: ':' :: ' ' :: dumpsV v) ++ rest) =
        '"' :: (escapeList k ++ '"' :: (':' :: ' ' :: (dumpsV v ++ rest))) from by simp]
      simp only [parseKV]
      first
        | rw [if_pos True.intro]
        | rw [if_pos (rfl : ('"' : Char) = '"')]
      rw [parseStringBody_escape k (':' :: ' ' :: (dumpsV v ++ rest))]
      show (match parseV fuel (dumpsV v ++ rest) with
        | some (v2, r3) => some ((k, v2), r3)
        | none => none) = some ((k, v), rest)
      rw [ihV v rest (by omega) hr]
    · intro kvs rest hsz
      cases kvs with
      | nil =>
        rw [show dumpsObjTail JObj.nil = [] from by simp [dumpsObjTail]]
        simp [parseObjTail, rbrace]
      | cons k v kvs2 =>
        have e1 : jsizeObj (JObj.cons k v kvs2) = 1 + jsize v + jsizeObj kvs2 := by
          simp [jsizeObj]
        have hs1 : jsize v + 1 < fuel := by
          have := jsizeObj_pos kvs2
          omega
        have hs2 : jsizeObj kvs2 < fuel := by
          have := jsize_pos v
          omega
        rw [show dumpsObjTail (JObj.cons k v kvs2) =
          ',' :: ' ' :: dumpsKV k v ++ dumpsObjTail kvs2 from by simp [dumpsObjTail]]
        rw [show ((',' :: ' ' :: dumpsKV k v ++ dumpsObjTail kvs2) ++ rbrace :: rest) =
          ',' :: ' ' :: (dumpsKV k v ++ (dumpsObjTail kvs2 ++ rbrace :: rest)) from by simp]
        simp only [parseObjTail]
        rw [if_neg (show ¬((',' : Char) = rbrace) from by decide)]
        first
          | rw [if_pos True.intro]
          | rw [if_pos (rfl : (',' : Char) = ',')]
        show (match parseKV fuel (dumpsKV k v ++ (dumpsObjTail kvs2 ++ rbrace :: rest)) with
          | some (kv, r1) =>
            match parseObjTail fuel r1 with
            | some (kvs3, r2) => some (JObj.cons kv.1 kv.2 kvs3, r2)
            | none => none
          | none => none) = some (JObj.cons k v kvs2, rest)
        rw [ihK k v (dumpsObjTail kvs2 ++ rbrace :: rest) hs1
          (headNotDigit_objTail kvs2 rest)]
        dsimp only
        rw [ihO kvs2 rest hs2]

/-- Round trip: the parser recovers every serialized value exactly. -/
theorem loads_dumps (v : JValue) : loads (dumpsV v) = some v := by
  have hle := jsize_le_dumps v
  have h := (parse_dumps_aux (2 * (dumpsV v).length + 2)).1 v [] (by omega) trivial
  rw [List.append_nil] at h
  rw [loads, h]


/-- Payload serialization performed by `EventPublisher.publish`:
`json.dumps(message).encode()` (characters of the produced body). -/
def publishData (m : JValue) : List Char := dumpsV m

/-- The body of `_relay` inside the `try` block: `json.loads(body)` (which
raises on a parse failure) followed by `await self.on_message(...)` (which
may raise); the delivered value is the decoded body. -/
def relayBody (cb : JValue → Except String Unit) (body : List Char) :
    Except String JValue :=
  match loads body with
  | none => Except.error "json decode error"
  | some v =>
    match cb v with
    | Except.ok _ => Except.ok v
    | Except.error e => Except.error e

/-- The `_relay` method as seen by the AMQP consumer loop: run the body and
catch every exception, logging instead of re-raising, so the coroutine never
raises to its caller. -/
def relayRun (cb : JValue → Except String Unit) (body : List Char) :
    Except String Unit :=
  match relayBody cb body with
  | Except.ok _ => Except.ok ()
  | Except.error _ => Except.ok ()

theorem relayRun_ok (cb : JValue → Except String Unit) (body : List Char) :
    relayRun cb body = Except.ok () := by
  cases h : relayBody cb body <;> simp [relayRun, h]

/-- Sequential delivery of a list of message bodies by the consumer loop:
an exception escaping `_relay` would abort the loop and stop delivery of
the remaining messages; the result counts delivered relays. -/
def consumeLoop (cb : JValue → Except String Unit) :
    List (List Char) → Except String Nat
  | [] => Except.ok 0
  | m :: ms =>
    match relayRun cb m with
    | Except.ok _ =>
      match consumeLoop cb ms with
      | Except.ok n => Except.ok (n + 1)
      | Except.error e => Except.error e
    | Except.error e => Except.error e

/-- Claim C4: `_relay` never propagates an error to its caller — a JSON
parse failure of the body or an exception raised by the current callback is
caught and logged — and therefore a malfunctioning callback or a malformed
message never stops the consumer loop: every message of any sequence is
processed. -/
theorem c4_relay_never_propagates (cb : JValue → Except String Unit)
    (body : List Char) (msgs : List (List Char)) :
    relayRun cb body = Except.ok () ∧
    consumeLoop cb msgs = Except.ok msgs.length := by
  refine ⟨relayRun_ok cb body, ?_⟩
  induction msgs with
  | nil => rfl
  | cons m ms ih => simp [consumeLoop, relayRun_ok cb m, ih]

/-- Claim C6: the relay's JSON decode of the publisher's JSON encoding is
the identity: a structured (dict) payload delivered through `_relay` with a
non-raising callback yields exactly the original value, and a string
payload is transmitted as a JSON string literal that decodes back to the
same string. -/
theorem c6_publish_relay_roundtrip (kvs : JObj) (str : List Char) :
    relayBody (fun _ => Except.ok ()) (publishData (JValue.jobj kvs)) =
      Except.ok (JValue.jobj kvs) ∧
    loads (publishData (JValue.jstr str)) = some (JValue.jstr str) ∧
    publishData (JValue.jstr str) = '"' :: escapeList str ++ ['"'] := by
  refine ⟨?_, ?_, ?_⟩
  · simp [relayBody, publishData, loads_dumps]
  · exact loads_dumps (JValue.jstr str)
  · simp [publishData, dumpsV]

end Brewblox
